import Mathlib

/-!
Verification of the fuzzy irrigation controller (src/fuzzy.py).

The repository defines four linguistic variables with triangular
membership functions, thirteen Mamdani rules, and evaluates them through
the skfuzzy control pipeline.  The concrete variables, terms, rules and
universes below are translated from src/fuzzy.py.  The inference
combinators (AND as minimum, min implication, max aggregation, centroid
defuzzification) live in the skfuzzy library rather than in src/, so
they are modelled from the spec where marked.

All arithmetic is over ℚ for exactness.
-/

/-- Triangular membership function with breakpoints `a ≤ b ≤ c`
(skfuzzy.trimf evaluated at a single point): 1 at `b`, rising linearly
on `(a, b)`, falling linearly on `(b, c)`, 0 elsewhere. -/
def trimf (a b c x : ℚ) : ℚ :=
  if x = b then 1
  else if a < x ∧ x < b then (x - a) / (b - a)
  else if b < x ∧ x < c then (c - x) / (c - b)
  else 0

/-- Crisp input assignment covering the three antecedent variables
(src/fuzzy.py lines 31-33). -/
structure Inputs where
  soil_moisture : ℚ
  temperature : ℚ
  weather : ℚ
deriving DecidableEq

/-- The antecedent (variable, term) leaves of the engine
(src/fuzzy.py lines 38-48). -/
inductive Term where
  | dry | moderate | wet
  | low | medium | high
  | rainy | cloudy | sunny
deriving DecidableEq

/-- Fuzzification of a leaf: look up the leaf's variable in the crisp
input assignment and evaluate the term's membership function there.
Breakpoints are those of src/fuzzy.py lines 38-48. -/
def fuzzify (i : Inputs) : Term → ℚ
  | .dry => trimf 0 0 50 i.soil_moisture
  | .moderate => trimf 30 50 70 i.soil_moisture
  | .wet => trimf 50 100 100 i.soil_moisture
  | .low => trimf 0 0 20 i.temperature
  | .medium => trimf 15 25 35 i.temperature
  | .high => trimf 30 40 40 i.temperature
  | .rainy => trimf 0 0 1 i.weather
  | .cloudy => trimf (1/2) 1 (3/2) i.weather
  | .sunny => trimf (3/2) 2 2 i.weather

/-- Antecedent expression tree: leaves combined by the fuzzy
combinators (spec section 4.3; the source builds these with skfuzzy
operator overloads). -/
inductive AExpr where
  | leaf : Term → AExpr
  | and : AExpr → AExpr → AExpr
  | or : AExpr → AExpr → AExpr
  | not : AExpr → AExpr
deriving DecidableEq

/-- Modelled from the spec: skfuzzy's antecedent-expression evaluation
is library code not under src/.  Per spec section 4.3 the t-norm for
AND is minimum (the algebraic product is NOT used), OR is maximum and
NOT is complement. -/
def AExpr.evaluate (i : Inputs) : AExpr → ℚ
  | .leaf t => fuzzify i t
  | .and l r => min (l.evaluate i) (r.evaluate i)
  | .or l r => max (l.evaluate i) (r.evaluate i)
  | .not e => 1 - e.evaluate i

/-- The (variable, term) leaves of an antecedent expression, left to
right. -/
def AExpr.leaves : AExpr → List Term
  | .leaf t => [t]
  | .and l r => l.leaves ++ r.leaves
  | .or l r => l.leaves ++ r.leaves
  | .not e => e.leaves

/-- An expression built purely as a conjunction of leaves. -/
def AExpr.isConj : AExpr → Bool
  | .leaf _ => true
  | .and l r => l.isConj && r.isConj
  | .or _ _ => false
  | .not _ => false

/-- The consequent terms of water_supply (src/fuzzy.py lines 50-53). -/
inductive WTerm where
  | none | low | moderate | high
deriving DecidableEq

/-- Membership function of a water_supply term, breakpoints from
src/fuzzy.py lines 50-53. -/
def wtermMf : WTerm → ℚ → ℚ
  | .none => trimf 0 0 15
  | .low => trimf 10 20 30
  | .moderate => trimf 25 40 50
  | .high => trimf 40 60 60

/-- A rule: antecedent expression plus consequent water_supply term. -/
structure Rule where
  antecedent : AExpr
  consequent : WTerm
deriving DecidableEq

def rule1 : Rule := ⟨.and (.and (.leaf .dry) (.leaf .high)) (.leaf .sunny), .high⟩
def rule2 : Rule := ⟨.and (.leaf .wet) (.leaf .rainy), .none⟩
def rule3 : Rule := ⟨.and (.leaf .moderate) (.leaf .cloudy), .low⟩
def rule4 : Rule := ⟨.and (.and (.leaf .moderate) (.leaf .medium)) (.leaf .sunny), .moderate⟩
def rule5 : Rule := ⟨.and (.leaf .dry) (.leaf .high), .high⟩
def rule6 : Rule := ⟨.and (.leaf .dry) (.leaf .sunny), .moderate⟩
def rule7 : Rule := ⟨.and (.leaf .wet) (.leaf .low), .none⟩
def rule8 : Rule := ⟨.and (.leaf .wet) (.leaf .cloudy), .low⟩
def rule9 : Rule := ⟨.and (.leaf .moderate) (.leaf .high), .moderate⟩
def rule10 : Rule := ⟨.and (.and (.leaf .dry) (.leaf .medium)) (.leaf .rainy), .low⟩
def rule11 : Rule := ⟨.and (.and (.leaf .wet) (.leaf .high)) (.leaf .sunny), .moderate⟩
def rule12 : Rule := ⟨.and (.and (.leaf .moderate) (.leaf .high)) (.leaf .rainy), .high⟩
def rule13 : Rule := ⟨.and (.and (.leaf .moderate) (.leaf .low)) (.leaf .sunny), .low⟩

/-- The rule base of irrigation_ctrl (src/fuzzy.py line 73). -/
def ruleBase : List Rule :=
  [rule1, rule2, rule3, rule4, rule5, rule6, rule7, rule8, rule9,
   rule10, rule11, rule12, rule13]

/-- Firing strength of a rule at a crisp input assignment (rule weight
is the default 1 for every rule of the source). -/
def firingStrength (i : Inputs) (r : Rule) : ℚ :=
  r.antecedent.evaluate i

/-- Modelled from the spec: skfuzzy's min implication is library code
not under src/.  The clipped output set of a rule at a point of the
consequent universe (spec section 4.4). -/
def clip (i : Inputs) (r : Rule) (x : ℚ) : ℚ :=
  min (firingStrength i r) (wtermMf r.consequent x)

/-- Modelled from the spec: skfuzzy's aggregation is library code not
under src/.  Pointwise maximum of the rules' clipped output sets, 0
when no rule contributes (spec section 4.5). -/
def aggregate (i : Inputs) (rs : List Rule) (x : ℚ) : ℚ :=
  rs.foldr (fun r acc => max (clip i r x) acc) 0

/-- Sample points of the water_supply universe, np.arange(0, 61, 1)
(src/fuzzy.py line 34). -/
def waterUniverse : List ℚ :=
  (List.range 61).map (fun n => (n : ℚ))

/-- Modelled from the spec: skfuzzy's centroid defuzzifier is library
code not under src/.  Per spec section 4.6, centroid over the fixed
sample points, failing when the denominator is zero (the
DefuzzificationError / NoApplicableRuleError outcome, reported as an
absent output rather than a division by zero). -/
def defuzzCentroid (m : ℚ → ℚ) (xs : List ℚ) : Option ℚ :=
  let den := (xs.map m).sum
  if den = 0 then Option.none
  else Option.some ((xs.map (fun x => x * m x)).sum / den)

/-- One evaluation of the engine: aggregate the rule base over the
water_supply universe and defuzzify.  `Option.none` models
"water_supply absent from the simulation output"
(src/fuzzy.py lines 186-200). -/
def compute (i : Inputs) : Option ℚ :=
  defuzzCentroid (aggregate i ruleBase) waterUniverse

/-- State of the shared simulation object irrigation_sim
(src/fuzzy.py line 74): its current crisp inputs and the output of the
last compute, if any. -/
structure SimState where
  inputs : Inputs
  output : Option ℚ
deriving DecidableEq

/-- Running compute on the simulation object: the output is replaced
by a pure function of the current inputs; prior output state is
discarded. -/
def computeSim (s : SimState) : SimState :=
  ⟨s.inputs, compute s.inputs⟩

/-- The breakpoint triples of every triangular membership function of
the engine (src/fuzzy.py lines 38-53), in source order. -/
def engineTriples : List (ℚ × ℚ × ℚ) :=
  [(0, 0, 50), (30, 50, 70), (50, 100, 100),
   (0, 0, 20), (15, 25, 35), (30, 40, 40),
   (0, 0, 1), (1/2, 1, 3/2), (3/2, 2, 2),
   (0, 0, 15), (10, 20, 30), (25, 40, 50), (40, 60, 60)]

/-! ### Basic bounds for the triangular membership function -/

theorem trimf_nonneg (a b c x : ℚ) : 0 ≤ trimf a b c x := by
  unfold trimf
  split_ifs with h1 h2 h3
  · norm_num
  · exact div_nonneg (by linarith [h2.1]) (by linarith [h2.1, h2.2])
  · exact div_nonneg (by linarith [h3.2]) (by linarith [h3.1, h3.2])
  · exact le_refl 0

theorem trimf_le_one (a b c x : ℚ) : trimf a b c x ≤ 1 := by
  unfold trimf
  split_ifs with h1 h2 h3
  · exact le_refl 1
  · rw [div_le_one (by linarith [h2.1, h2.2])]
    linarith [h2.2]
  · rw [div_le_one (by linarith [h3.1, h3.2])]
    linarith [h3.1]
  · norm_num

theorem trimf_peak (a b c : ℚ) : trimf a b c b = 1 := by
  simp [trimf]

theorem trimf_left_foot (a b c : ℚ) (hab : a ≤ b) (hne : a ≠ b) :
    trimf a b c a = 0 := by
  have h : a < b := lt_of_le_of_ne hab hne
  unfold trimf
  rw [if_neg (ne_of_lt h), if_neg (by rintro ⟨h1, _⟩; exact absurd h1 (lt_irrefl a)),
    if_neg (by rintro ⟨h1, _⟩; linarith)]

theorem trimf_right_foot (a b c : ℚ) (hbc : b ≤ c) (hne : b ≠ c) :
    trimf a b c c = 0 := by
  have h : b < c := lt_of_le_of_ne hbc hne
  unfold trimf
  rw [if_neg (Ne.symm (ne_of_lt h)), if_neg (by rintro ⟨_, h2⟩; linarith),
    if_neg (by rintro ⟨_, h2⟩; exact absurd h2 (lt_irrefl c))]

theorem trimf_outside (a b c x : ℚ) (hab : a ≤ b) (hbc : b ≤ c)
    (h : x < a ∨ c < x) : trimf a b c x = 0 := by
  unfold trimf
  rcases h with h | h
  · rw [if_neg (by rintro rfl; linarith), if_neg (by rintro ⟨h1, _⟩; linarith),
      if_neg (by rintro ⟨h1, _⟩; linarith)]
  · rw [if_neg (by rintro rfl; linarith), if_neg (by rintro ⟨_, h2⟩; linarith),
      if_neg (by rintro ⟨_, h2⟩; linarith)]

theorem trimf_mono_up (a b c x y : ℚ) (hx : a ≤ x) (hxy : x ≤ y) (hyb : y ≤ b) :
    trimf a b c x ≤ trimf a b c y := by
  rcases eq_or_lt_of_le hyb with rfl | hyb
  · calc trimf a y c x ≤ 1 := trimf_le_one a y c x
      _ = trimf a y c y := (trimf_peak a y c).symm
  · have hxb : x < b := lt_of_le_of_lt hxy hyb
    unfold trimf
    rw [if_neg (ne_of_lt hxb), if_neg (ne_of_lt hyb)]
    by_cases hax : a < x
    · have hay : a < y := lt_of_lt_of_le hax hxy
      rw [if_pos ⟨hax, hxb⟩, if_pos ⟨hay, hyb⟩, div_le_div_iff_of_pos_right (by linarith)]
      linarith
    · rw [if_neg (fun h => hax h.1), if_neg (fun h => absurd h.1 (not_lt.mpr (le_of_lt hxb)))]
      by_cases hay : a < y
      · rw [if_pos ⟨hay, hyb⟩]
        exact div_nonneg (by linarith) (by linarith)
      · rw [if_neg (fun h => hay h.1), if_neg (fun h => absurd h.1 (not_lt.mpr (le_of_lt hyb)))]

theorem trimf_mono_down (a b c x y : ℚ) (hx : b ≤ x) (hxy : x ≤ y) (hyc : y ≤ c) :
    trimf a b c y ≤ trimf a b c x := by
  rcases eq_or_lt_of_le hx with rfl | hbx
  · calc trimf a b c y ≤ 1 := trimf_le_one a b c y
      _ = trimf a b c b := (trimf_peak a b c).symm
  · have hby : b < y := lt_of_lt_of_le hbx hxy
    unfold trimf
    rw [if_neg (Ne.symm (ne_of_lt hby)), if_neg (Ne.symm (ne_of_lt hbx))]
    rw [if_neg (show ¬(a < y ∧ y < b) from fun h => absurd h.2 (not_lt.mpr (le_of_lt hby))),
      if_neg (show ¬(a < x ∧ x < b) from fun h => absurd h.2 (not_lt.mpr (le_of_lt hbx)))]
    by_cases hyc2 : y < c
    · rw [if_pos ⟨hby, hyc2⟩, if_pos ⟨hbx, lt_of_le_of_lt hxy hyc2⟩,
        div_le_div_iff_of_pos_right (by linarith)]
      linarith
    · rw [if_neg (show ¬(b < y ∧ y < c) from fun h => hyc2 h.2)]
      by_cases hxc : x < c
      · rw [if_pos ⟨hbx, hxc⟩]
        exact div_nonneg (by linarith) (by linarith)
      · rw [if_neg (show ¬(b < x ∧ x < c) from fun h => hxc h.2)]

/-! ### Bounds for fuzzification and expression evaluation -/

theorem fuzzify_nonneg (i : Inputs) (t : Term) : 0 ≤ fuzzify i t := by
  cases t <;> exact trimf_nonneg _ _ _ _

theorem fuzzify_le_one (i : Inputs) (t : Term) : fuzzify i t ≤ 1 := by
  cases t <;> exact trimf_le_one _ _ _ _

theorem evaluate_nonneg (i : Inputs) (e : AExpr) :
    0 ≤ e.evaluate i ∧ e.evaluate i ≤ 1 := by
  induction e with
  | leaf t => exact ⟨fuzzify_nonneg i t, fuzzify_le_one i t⟩
  | and l r ihl ihr =>
      exact ⟨le_min ihl.1 ihr.1, le_trans (min_le_left _ _) ihl.2⟩
  | or l r ihl ihr =>
      exact ⟨le_trans ihl.1 (le_max_left _ _), max_le ihl.2 ihr.2⟩
  | not e ih =>
      constructor
      · simp only [AExpr.evaluate]
        linarith [ih.2]
      · simp only [AExpr.evaluate]
        linarith [ih.1]

theorem firingStrength_nonneg (i : Inputs) (r : Rule) :
    0 ≤ firingStrength i r :=
  (evaluate_nonneg i r.antecedent).1

theorem wtermMf_nonneg (w : WTerm) (x : ℚ) : 0 ≤ wtermMf w x := by
  cases w <;> exact trimf_nonneg _ _ _ _

/-- A conjunction-of-leaves expression evaluates to the minimum of its
leaves' membership degrees: it is a lower bound of them and is attained
by one of them. -/
theorem conj_evaluates_to_min (e : AExpr) (he : e.isConj = true) (i : Inputs) :
    (∀ t ∈ e.leaves, e.evaluate i ≤ fuzzify i t) ∧
      e.evaluate i ∈ e.leaves.map (fuzzify i) := by
  induction e with
  | leaf t =>
      refine ⟨fun s hs => ?_, by simp [AExpr.leaves, AExpr.evaluate]⟩
      simp only [AExpr.leaves, List.mem_singleton] at hs
      subst hs
      exact le_refl _
  | and l r ihl ihr =>
      simp only [AExpr.isConj, Bool.and_eq_true] at he
      obtain ⟨hl1, hl2⟩ := ihl he.1
      obtain ⟨hr1, hr2⟩ := ihr he.2
      constructor
      · intro t ht
        simp only [AExpr.leaves, List.mem_append] at ht
        rcases ht with ht | ht
        · exact le_trans (min_le_left _ _) (hl1 t ht)
        · exact le_trans (min_le_right _ _) (hr1 t ht)
      · simp only [AExpr.leaves, AExpr.evaluate, List.map_append, List.mem_append]
        rcases le_total (l.evaluate i) (r.evaluate i) with h | h
        · rw [min_eq_left h]
          exact Or.inl hl2
        · rw [min_eq_right h]
          exact Or.inr hr2
  | or l r ihl ihr => simp [AExpr.isConj] at he
  | not e ih => simp [AExpr.isConj] at he

/-- Every rule of the rule base has a pure conjunction of leaves as its
antecedent. -/
theorem ruleBase_all_conj : ∀ r ∈ ruleBase, r.antecedent.isConj = true := by
  decide

/-! ### Aggregation lemmas -/

theorem clip_nonneg (i : Inputs) (r : Rule) (x : ℚ) : 0 ≤ clip i r x :=
  le_min (firingStrength_nonneg i r) (wtermMf_nonneg r.consequent x)

theorem aggregate_nonneg (i : Inputs) (rs : List Rule) (x : ℚ) :
    0 ≤ aggregate i rs x := by
  induction rs with
  | nil => exact le_refl 0
  | cons r rs ih => exact le_trans ih (le_max_right _ _)

theorem aggregate_cons (i : Inputs) (r : Rule) (rs : List Rule) (x : ℚ) :
    aggregate i (r :: rs) x = max (clip i r x) (aggregate i rs x) := rfl

theorem clip_le_aggregate (i : Inputs) (rs : List Rule) (x : ℚ) :
    ∀ s ∈ rs, clip i s x ≤ aggregate i rs x := by
  induction rs with
  | nil => intro s hs; exact absurd hs (List.not_mem_nil s)
  | cons r rs ih =>
      intro s hs
      rcases List.mem_cons.mp hs with rfl | hs
      · exact le_max_left _ _
      · exact le_trans (ih s hs) (le_max_right _ _)

theorem list_sum_zero_of_nonneg {l : List ℚ} (h0 : ∀ x ∈ l, 0 ≤ x)
    (h : l.sum = 0) : ∀ x ∈ l, x = 0 := by
  induction l with
  | nil => intro x hx; exact absurd hx (List.not_mem_nil x)
  | cons a l ih =>
      have ha : 0 ≤ a := h0 a (List.mem_cons_self a l)
      have hl : ∀ x ∈ l, 0 ≤ x := fun x hx => h0 x (List.mem_cons_of_mem a hx)
      have hs : 0 ≤ l.sum := List.sum_nonneg hl
      rw [List.sum_cons] at h
      have ha0 : a = 0 := by linarith
      have hl0 : l.sum = 0 := by linarith
      intro x hx
      rcases List.mem_cons.mp hx with rfl | hx
      · exact ha0
      · exact ih hl hl0 x hx

theorem waterUniverse_bounds : ∀ x ∈ waterUniverse, 0 ≤ x ∧ x ≤ 60 := by
  decide

/-! ### The claims -/

/-- C1: For every rule antecedent built as a conjunction of
(variable, term) leaves and every crisp input assignment, the rule's
firing strength equals the minimum of the leaves' membership degrees:
it is a lower bound of every leaf degree and is attained by one of
them, so the AND combinator is minimum, not the algebraic product. -/
theorem C1_and_combinator_is_min (r : Rule) (hr : r ∈ ruleBase) (i : Inputs) :
    (∀ t ∈ r.antecedent.leaves, firingStrength i r ≤ fuzzify i t) ∧
      firingStrength i r ∈ r.antecedent.leaves.map (fuzzify i) :=
  conj_evaluates_to_min r.antecedent (ruleBase_all_conj r hr) i

theorem C1_and_combinator_is_min_witness :
    rule2 ∈ ruleBase ∧
      ((∀ t ∈ rule2.antecedent.leaves,
          firingStrength ⟨100, 0, 0⟩ rule2 ≤ fuzzify ⟨100, 0, 0⟩ t) ∧
        firingStrength ⟨100, 0, 0⟩ rule2 ∈
          rule2.antecedent.leaves.map (fuzzify ⟨100, 0, 0⟩)) :=
  ⟨by decide, C1_and_combinator_is_min rule2 (by decide) ⟨100, 0, 0⟩⟩

/-- C2: For every rule and input assignment, the implicated output set
at each sample point x of the water_supply universe is
min(firing strength, consequent membership at x); a firing strength of
0 yields an output set identically 0, not an error. -/
theorem C2_min_implication_clip (r : Rule) (hr : r ∈ ruleBase) (i : Inputs)
    (x : ℚ) (hx : x ∈ waterUniverse) :
    clip i r x = min (firingStrength i r) (wtermMf r.consequent x) ∧
      (firingStrength i r = 0 → clip i r x = 0) := by
  refine ⟨rfl, fun h0 => ?_⟩
  rw [clip, h0]
  exact min_eq_left (wtermMf_nonneg r.consequent x)

theorem C2_min_implication_clip_witness :
    rule2 ∈ ruleBase ∧ (0 : ℚ) ∈ waterUniverse ∧
      (clip ⟨0, 0, 0⟩ rule2 0 =
          min (firingStrength ⟨0, 0, 0⟩ rule2) (wtermMf rule2.consequent 0) ∧
        (firingStrength ⟨0, 0, 0⟩ rule2 = 0 → clip ⟨0, 0, 0⟩ rule2 0 = 0)) :=
  ⟨by decide, by decide, C2_min_implication_clip rule2 (by decide) ⟨0, 0, 0⟩ 0 (by decide)⟩

/-- C3: The aggregated output set is the pointwise maximum of the
rules' clipped output sets (every clipped set is below it, and the
aggregate of a longer rule list satisfies the max recurrence), so
adding a rule with nonzero firing strength never decreases the
aggregated set at any point. -/
theorem C3_aggregation_pointwise_max_monotone (i : Inputs) (r : Rule)
    (rs : List Rule) (x : ℚ) (h : 0 < firingStrength i r) :
    aggregate i (r :: rs) x = max (clip i r x) (aggregate i rs x) ∧
      (∀ s ∈ rs, clip i s x ≤ aggregate i rs x) ∧
      aggregate i rs x ≤ aggregate i (r :: rs) x :=
  ⟨aggregate_cons i r rs x, clip_le_aggregate i rs x, le_max_right _ _⟩

theorem C3_aggregation_pointwise_max_monotone_witness :
    0 < firingStrength ⟨100, 0, 0⟩ rule2 ∧
      (aggregate ⟨100, 0, 0⟩ (rule2 :: [rule7]) 3 =
          max (clip ⟨100, 0, 0⟩ rule2 3) (aggregate ⟨100, 0, 0⟩ [rule7] 3) ∧
        (∀ s ∈ [rule7], clip ⟨100, 0, 0⟩ s 3 ≤ aggregate ⟨100, 0, 0⟩ [rule7] 3) ∧
        aggregate ⟨100, 0, 0⟩ [rule7] 3 ≤ aggregate ⟨100, 0, 0⟩ (rule2 :: [rule7]) 3) :=
  ⟨by decide,
    C3_aggregation_pointwise_max_monotone ⟨100, 0, 0⟩ rule2 [rule7] 3 (by decide)⟩

/-- C5: Every triangular membership function of the engine with
breakpoints a ≤ b ≤ c is 0 at a unless a = b, 1 at b, 0 at c unless
b = c, 0 outside [a, c], always within [0, 1], monotone non-decreasing
on [a, b] and non-increasing on [b, c]. -/
theorem C5_triangular_membership_shape (a b c : ℚ)
    (h : (a, b, c) ∈ engineTriples) (x y : ℚ) :
    (a ≠ b → trimf a b c a = 0) ∧ trimf a b c b = 1 ∧
      (b ≠ c → trimf a b c c = 0) ∧
      ((x < a ∨ c < x) → trimf a b c x = 0) ∧
      0 ≤ trimf a b c x ∧ trimf a b c x ≤ 1 ∧
      (a ≤ x → x ≤ y → y ≤ b → trimf a b c x ≤ trimf a b c y) ∧
      (b ≤ x → x ≤ y → y ≤ c → trimf a b c y ≤ trimf a b c x) := by
  have hord : a ≤ b ∧ b ≤ c := by
    fin_cases h <;> norm_num
  obtain ⟨hab, hbc⟩ := hord
  exact ⟨fun hne => trimf_left_foot a b c hab hne, trimf_peak a b c,
    fun hne => trimf_right_foot a b c hbc hne,
    fun hout => trimf_outside a b c x hab hbc hout,
    trimf_nonneg a b c x, trimf_le_one a b c x,
    fun h1 h2 h3 => trimf_mono_up a b c x y h1 h2 h3,
    fun h1 h2 h3 => trimf_mono_down a b c x y h1 h2 h3⟩

theorem C5_triangular_membership_shape_witness :
    ((1/2 : ℚ), (1 : ℚ), (3/2 : ℚ)) ∈ engineTriples ∧
      (((1/2 : ℚ) ≠ 1 → trimf (1/2) 1 (3/2) (1/2) = 0) ∧
        trimf (1/2) 1 (3/2) 1 = 1 ∧
        ((1 : ℚ) ≠ 3/2 → trimf (1/2) 1 (3/2) (3/2) = 0) ∧
        (((3/5 : ℚ) < 1/2 ∨ (3/2 : ℚ) < 3/5) → trimf (1/2) 1 (3/2) (3/5) = 0) ∧
        0 ≤ trimf (1/2) 1 (3/2) (3/5) ∧ trimf (1/2) 1 (3/2) (3/5) ≤ 1 ∧
        ((1/2 : ℚ) ≤ 3/5 → (3/5 : ℚ) ≤ 4/5 → (4/5 : ℚ) ≤ 1 →
          trimf (1/2) 1 (3/2) (3/5) ≤ trimf (1/2) 1 (3/2) (4/5)) ∧
        ((1 : ℚ) ≤ 3/5 → (3/5 : ℚ) ≤ 4/5 → (4/5 : ℚ) ≤ 3/2 →
          trimf (1/2) 1 (3/2) (4/5) ≤ trimf (1/2) 1 (3/2) (3/5))) :=
  ⟨by norm_num [engineTriples], C5_triangular_membership_shape (1/2) 1 (3/2)
    (by norm_num [engineTriples]) (3/5) (4/5)⟩

/-- C10: At each integer weather input 0, 1, 2, exactly one weather
term (rainy, cloudy, sunny respectively) has membership degree 1 and
the other two have degree 0, so the integer weather category behaves
as a crisp selector. -/
theorem C10_weather_crisp_selector :
    fuzzify ⟨0, 0, 0⟩ Term.rainy = 1 ∧ fuzzify ⟨0, 0, 0⟩ Term.cloudy = 0 ∧
      fuzzify ⟨0, 0, 0⟩ Term.sunny = 0 ∧
      fuzzify ⟨0, 0, 1⟩ Term.rainy = 0 ∧ fuzzify ⟨0, 0, 1⟩ Term.cloudy = 1 ∧
      fuzzify ⟨0, 0, 1⟩ Term.sunny = 0 ∧
      fuzzify ⟨0, 0, 2⟩ Term.rainy = 0 ∧ fuzzify ⟨0, 0, 2⟩ Term.cloudy = 0 ∧
      fuzzify ⟨0, 0, 2⟩ Term.sunny = 1 := by
  norm_num [fuzzify, trimf]

/-! ### Helpers for the aggregate-zero (no applicable rule) outcome -/

theorem aggregate_zero_of_no_fire (i : Inputs) (rs : List Rule) (x : ℚ)
    (h : ∀ r ∈ rs, firingStrength i r = 0) : aggregate i rs x = 0 := by
  induction rs with
  | nil => rfl
  | cons r rs ih =>
      rw [aggregate_cons]
      have h1 : clip i r x = 0 := by
        rw [clip, h r (List.mem_cons_self r rs)]
        exact min_eq_left (wtermMf_nonneg r.consequent x)
      rw [h1, ih (fun s hs => h s (List.mem_cons_of_mem r hs)), max_self]

theorem strengths_zero_at_origin :
    ∀ r ∈ ruleBase, firingStrength ⟨0, 0, 0⟩ r = 0 := by
  intro r hr
  simp only [ruleBase, List.mem_cons, List.not_mem_nil, or_false] at hr
  rcases hr with rfl | rfl | rfl | rfl | rfl | rfl | rfl | rfl | rfl | rfl | rfl | rfl | rfl <;>
    norm_num [firingStrength, rule1, rule2, rule3, rule4, rule5, rule6, rule7,
      rule8, rule9, rule10, rule11, rule12, rule13, AExpr.evaluate, fuzzify,
      trimf, min_def]

theorem list_sum_of_all_zero {l : List ℚ} (h : ∀ v ∈ l, v = 0) : l.sum = 0 := by
  induction l with
  | nil => rfl
  | cons a l ih =>
      rw [List.sum_cons, h a (List.mem_cons_self a l),
        ih (fun v hv => h v (List.mem_cons_of_mem a hv)), add_zero]

theorem compute_none_of_zero_aggregate (i : Inputs)
    (h : ∀ x ∈ waterUniverse, aggregate i ruleBase x = 0) :
    compute i = Option.none := by
  have hden : (waterUniverse.map (aggregate i ruleBase)).sum = 0 := by
    apply list_sum_of_all_zero
    intro v hv
    obtain ⟨y, hy, rfl⟩ := List.mem_map.mp hv
    exact h y hy
  simp only [compute, defuzzCentroid]
  rw [if_pos hden]

theorem origin_aggregate_zero (x : ℚ) :
    aggregate ⟨0, 0, 0⟩ ruleBase x = 0 :=
  aggregate_zero_of_no_fire ⟨0, 0, 0⟩ ruleBase x strengths_zero_at_origin

/-! ### Remaining claims -/

/-- C4: When the aggregated water_supply set is not identically zero,
the crisp output equals the centroid over the universe's fixed sample
points: sum of x * aggregated(x) divided by sum of aggregated(x). -/
theorem C4_centroid_defuzzification (i : Inputs)
    (h : ∃ x ∈ waterUniverse, aggregate i ruleBase x ≠ 0) :
    compute i = Option.some
      ((waterUniverse.map (fun x => x * aggregate i ruleBase x)).sum /
        (waterUniverse.map (aggregate i ruleBase)).sum) := by
  obtain ⟨x, hx, hne⟩ := h
  have hden : (waterUniverse.map (aggregate i ruleBase)).sum ≠ 0 := by
    intro h0
    refine hne (list_sum_zero_of_nonneg ?_ h0 (aggregate i ruleBase x)
      (List.mem_map_of_mem _ hx))
    intro v hv
    obtain ⟨y, hy, rfl⟩ := List.mem_map.mp hv
    exact aggregate_nonneg i ruleBase y
  simp only [compute, defuzzCentroid]
  rw [if_neg hden]

set_option maxHeartbeats 400000 in
theorem C4_centroid_defuzzification_witness :
    (∃ x ∈ waterUniverse, aggregate ⟨100, 0, 0⟩ ruleBase x ≠ 0) ∧
      compute ⟨100, 0, 0⟩ = Option.some
        ((waterUniverse.map (fun x => x * aggregate ⟨100, 0, 0⟩ ruleBase x)).sum /
          (waterUniverse.map (aggregate ⟨100, 0, 0⟩ ruleBase)).sum) := by
  have hex : ∃ x ∈ waterUniverse, aggregate ⟨100, 0, 0⟩ ruleBase x ≠ 0 := by
    refine ⟨0, by decide, ?_⟩
    norm_num [aggregate, ruleBase, rule1, rule2, rule3, rule4, rule5, rule6,
      rule7, rule8, rule9, rule10, rule11, rule12, rule13, clip, firingStrength,
      AExpr.evaluate, fuzzify, wtermMf, trimf, min_def, max_def]
  exact ⟨hex, C4_centroid_defuzzification ⟨100, 0, 0⟩ hex⟩

/-- C6: If the aggregated water_supply set is identically zero at every
sample point, the evaluation reports the error outcome (water_supply
absent from the output, modelled as Option.none) rather than dividing
by zero or crashing. -/
theorem C6_zero_aggregate_is_reported (i : Inputs)
    (h : ∀ x ∈ waterUniverse, aggregate i ruleBase x = 0) :
    compute i = Option.none :=
  compute_none_of_zero_aggregate i h

theorem C6_zero_aggregate_is_reported_witness :
    (∀ x ∈ waterUniverse, aggregate ⟨0, 0, 0⟩ ruleBase x = 0) ∧
      compute ⟨0, 0, 0⟩ = Option.none :=
  ⟨fun x _ => origin_aggregate_zero x,
    C6_zero_aggregate_is_reported ⟨0, 0, 0⟩ (fun x _ => origin_aggregate_zero x)⟩

/-- C7 counterexample: at soil_moisture = 0, temperature = 0,
weather = 0 every one of the thirteen rules has firing strength 0 and
the engine reports no water_supply output, so the claim that some rule
fires with nonzero strength and a finite crisp value is returned is
false at this input. -/
theorem C7_counterexample_origin_all_rules_zero :
    ruleBase.map (firingStrength ⟨0, 0, 0⟩) = List.replicate 13 0 ∧
      compute ⟨0, 0, 0⟩ = Option.none := by
  constructor
  · refine List.eq_replicate_iff.mpr ⟨by simp [ruleBase], ?_⟩
    intro b hb
    obtain ⟨r, hr, rfl⟩ := List.mem_map.mp hb
    exact strengths_zero_at_origin r hr
  · exact compute_none_of_zero_aggregate ⟨0, 0, 0⟩ (fun x _ => origin_aggregate_zero x)

/-- C7 (amended): For the input assignment soil_moisture = 0,
temperature = 0, weather = 0 every rule's firing strength is 0, the
aggregated water_supply set is identically 0 at every sample point,
and the engine reports the no-applicable-rule outcome (water_supply
absent from the output) instead of returning a crisp value. -/
theorem C7_amended_origin_reports_error :
    ruleBase.map (firingStrength ⟨0, 0, 0⟩) = List.replicate 13 0 ∧
      waterUniverse.map (aggregate ⟨0, 0, 0⟩ ruleBase) = List.replicate 61 0 ∧
      compute ⟨0, 0, 0⟩ = Option.none := by
  refine ⟨?_, ?_, compute_none_of_zero_aggregate ⟨0, 0, 0⟩ (fun x _ => origin_aggregate_zero x)⟩
  · refine List.eq_replicate_iff.mpr ⟨by simp [ruleBase], ?_⟩
    intro b hb
    obtain ⟨r, hr, rfl⟩ := List.mem_map.mp hb
    exact strengths_zero_at_origin r hr
  · refine List.eq_replicate_iff.mpr
      ⟨by decide, ?_⟩
    intro b hb
    obtain ⟨y, hy, rfl⟩ := List.mem_map.mp hb
    exact origin_aggregate_zero y

/-- C8: Evaluation is deterministic and stateless: running the
simulation object twice with the same crisp inputs, regardless of any
previously stored output, yields identical results; the result is a
pure function of the inputs. -/
theorem C8_evaluation_pure_idempotent (s t : SimState) (h : s.inputs = t.inputs) :
    computeSim s = computeSim t ∧ computeSim (computeSim s) = computeSim s := by
  refine ⟨?_, rfl⟩
  simp [computeSim, h]

theorem C8_evaluation_pure_idempotent_witness :
    (SimState.mk ⟨100, 0, 0⟩ Option.none).inputs =
        (SimState.mk ⟨100, 0, 0⟩ (Option.some 5)).inputs ∧
      (computeSim ⟨⟨100, 0, 0⟩, Option.none⟩ =
          computeSim ⟨⟨100, 0, 0⟩, Option.some 5⟩ ∧
        computeSim (computeSim ⟨⟨100, 0, 0⟩, Option.none⟩) =
          computeSim ⟨⟨100, 0, 0⟩, Option.none⟩) :=
  ⟨rfl, C8_evaluation_pure_idempotent ⟨⟨100, 0, 0⟩, Option.none⟩
    ⟨⟨100, 0, 0⟩, Option.some 5⟩ rfl⟩

/-- C9: Whenever compute succeeds, the crisp water_supply value lies
within the consequent universe bounds 0..60, for every input
assignment within the antecedent universes. -/
theorem C9_output_within_bounds (i : Inputs) (v : ℚ)
    (h1 : 0 ≤ i.soil_moisture) (h2 : i.soil_moisture ≤ 100)
    (h3 : 0 ≤ i.temperature) (h4 : i.temperature ≤ 40)
    (h5 : 0 ≤ i.weather) (h6 : i.weather ≤ 2)
    (h : compute i = Option.some v) : 0 ≤ v ∧ v ≤ 60 := by
  by_cases hden : (waterUniverse.map (aggregate i ruleBase)).sum = 0
  · simp only [compute, defuzzCentroid] at h
    rw [if_pos hden] at h
    exact Option.noConfusion h
  · simp only [compute, defuzzCentroid] at h
    rw [if_neg hden] at h
    have hv : v = (waterUniverse.map (fun x => x * aggregate i ruleBase x)).sum /
        (waterUniverse.map (aggregate i ruleBase)).sum := (Option.some.inj h).symm
    have hnonneg : ∀ w ∈ waterUniverse.map (aggregate i ruleBase), 0 ≤ w := by
      intro w hw
      obtain ⟨y, hy, rfl⟩ := List.mem_map.mp hw
      exact aggregate_nonneg i ruleBase y
    have hd0 : 0 ≤ (waterUniverse.map (aggregate i ruleBase)).sum :=
      List.sum_nonneg hnonneg
    have hdpos : 0 < (waterUniverse.map (aggregate i ruleBase)).sum :=
      lt_of_le_of_ne hd0 (Ne.symm hden)
    have hnum0 : 0 ≤ (waterUniverse.map (fun x => x * aggregate i ruleBase x)).sum := by
      apply List.sum_nonneg
      intro w hw
      obtain ⟨y, hy, rfl⟩ := List.mem_map.mp hw
      exact mul_nonneg (waterUniverse_bounds y hy).1 (aggregate_nonneg i ruleBase y)
    have hsum60 : (waterUniverse.map (fun x => 60 * aggregate i ruleBase x)).sum =
        60 * (waterUniverse.map (aggregate i ruleBase)).sum := by
      rw [List.sum_map_mul_left]
    have hnum60 : (waterUniverse.map (fun x => x * aggregate i ruleBase x)).sum ≤
        60 * (waterUniverse.map (aggregate i ruleBase)).sum := by
      rw [← hsum60]
      apply List.sum_le_sum
      intro y hy
      exact mul_le_mul_of_nonneg_right (waterUniverse_bounds y hy).2
        (aggregate_nonneg i ruleBase y)
    subst hv
    constructor
    · exact div_nonneg hnum0 hd0
    · rw [div_le_iff hdpos]
      linarith

set_option maxHeartbeats 4000000 in
set_option maxRecDepth 8000 in
theorem C9_output_within_bounds_witness :
    compute ⟨100, 0, 0⟩ = Option.some (14 / 3) ∧
      (0 ≤ (14 / 3 : ℚ) ∧ (14 / 3 : ℚ) ≤ 60) := by
  have hc : compute ⟨100, 0, 0⟩ = Option.some (14 / 3) := by
    norm_num [compute, defuzzCentroid, waterUniverse, List.range, List.range.loop,
      aggregate, ruleBase, rule1, rule2, rule3, rule4, rule5, rule6, rule7, rule8,
      rule9, rule10, rule11, rule12, rule13, clip, firingStrength, AExpr.evaluate,
      fuzzify, wtermMf, trimf, min_def, max_def]
  exact ⟨hc, C9_output_within_bounds ⟨100, 0, 0⟩ (14 / 3) (by norm_num) (by norm_num)
    (le_refl 0) (by norm_num) (le_refl 0) (by norm_num) hc⟩
